import Mathlib

/-!
Shallow embedding of the review-analytics scripts
(`analyze_reviews.py`, `analyze_reviews_final.py`, `generate_final_charts.py`,
`generate_region_chart.py`).

Conventions of the embedding:
* pandas/NumPy floats are modelled as `ℚ`; a NaN result is modelled as `none`
  of an `Option` type;
* a pandas column is a `List` of optional values, `none` standing for a
  null/NaN cell; the length of the list is `len(df)`;
* timestamps are modelled as integers (an abstract linear time axis) paired
  with their precomputed calendar-month bucket (the `to_period('M')` label),
  since only ordering and month grouping are used by the code;
* `pandas.sort_values` on a single key is modelled as a stable sort (NumPy's
  introsort falls back to a stable insertion sort below its size threshold,
  and group counts in these scripts are small); ties therefore keep the
  ascending-key order produced by `groupby`.
-/

namespace PP

/-! ## Generic string helpers (Python `str.lower` and the `in` operator) -/

/-- `sub_at ps ss` is true when `ps` is an initial segment of `ss`. -/
def sub_at : List Char → List Char → Bool
  | [], _ => true
  | _ :: _, [] => false
  | a :: ps, b :: ss => a == b && sub_at ps ss

/-- `contains_sub ps ss`: Python's substring test `ps in ss` on char lists. -/
def contains_sub : List Char → List Char → Bool
  | ps, [] => ps.isEmpty
  | ps, b :: t => sub_at ps (b :: t) || contains_sub ps t

/-- Python `pat in s` for strings. -/
def str_contains_sub (pat s : String) : Bool :=
  contains_sub pat.data s.data

/-- Python `s.lower()` (character-wise, as used on ASCII/Chinese names). -/
def str_lower (s : String) : String :=
  String.mk (s.data.map Char.toLower)

/-! ## Duplicate counting (`Series.duplicated().sum()`, analyze_reviews.py:312)

`duplicated()` marks every occurrence of a value that already appeared
earlier in the column; NaN cells compare equal to each other, which the
`Option` encoding reproduces (`none = none`). -/

/-- Walks the column keeping the multiset of values seen so far and counts
the cells whose value was already seen — exactly the rows that
`Series.duplicated()` marks. -/
def dup_count_aux (seen : List (Option String)) : List (Option String) → ℕ
  | [] => 0
  | x :: xs => (if x ∈ seen then 1 else 0) + dup_count_aux (x :: seen) xs

/-- `self.df[comment_col].duplicated().sum()` (analyze_reviews.py:312). -/
def duplicated_sum (l : List (Option String)) : ℕ :=
  dup_count_aux [] l

/-- Sum of `(occurrences − 1)` over the distinct values of the column —
the spec's formulation of the duplicate count. -/
def claim_dup_count (l : List (Option String)) : ℕ :=
  (l.dedup.map (fun v => l.count v - 1)).sum

/-- The DuplicateReviews rule (analyze_reviews.py:312-315): fires iff the
duplicate count is positive; payload is the count and the rate
`duplicates / len(df) * 100`. -/
def duplicate_reviews (l : List (Option String)) : Option (ℕ × ℚ) :=
  let d := duplicated_sum l
  if 0 < d then some (d, (d : ℚ) / (l.length : ℚ) * 100) else none

/-! ## Rating concentration (analyze_reviews.py:299-304)

`value_counts()` tallies the non-null values of the rating column; the rule
compares the largest tally against `len(self.df)` — the *total* row count,
nulls included. -/

/-- The non-null values of an optional column. -/
def nonnull_vals {α : Type} (l : List (Option α)) : List α :=
  l.filterMap id

/-- `value_counts().max()`: the largest tally of a single non-null value
(`0` for an all-null or empty column, where pandas would yield NaN and the
`> 0.7` test is false either way). -/
def value_counts_max (l : List (Option ℚ)) : ℕ :=
  ((nonnull_vals l).dedup.map (fun v => l.count (some v))).foldr max 0

/-- `value_counts().idxmax()`: a value attaining the largest tally. -/
def idxmax (l : List (Option ℚ)) : Option ℚ :=
  (nonnull_vals l).dedup.find? (fun v => l.count (some v) == value_counts_max l)

/-- The RatingConcentration rule (analyze_reviews.py:299-304): fires iff
`value_counts().max() / len(self.df) > 0.7`; payload is the dominant value
and its percentage of `len(self.df)`. -/
def rating_concentration (l : List (Option ℚ)) : Option (ℚ × ℚ) :=
  if (value_counts_max l : ℚ) / (l.length : ℚ) > 7/10 then
    match idxmax l with
    | some d => some (d, (value_counts_max l : ℚ) / (l.length : ℚ) * 100)
    | none => none
  else none

/-! ## Flat rating statistics (analyze_reviews.py:116-146)

`ratings = self.df[rating_col].dropna()` yields the list of non-null
ratings; `ratings.std()` is the pandas default, i.e. divisor `n − 1`
(`ddof=1`), and NaN when `n ≤ 1`.  The standard deviation itself is the
square root of the value modelled here; since the square root is injective
on nonnegative rationals, equality/inequality of standard deviations is
settled by their squares. -/

/-- `ratings.mean()` over the non-null ratings. -/
def ratings_mean (l : List ℚ) : ℚ := l.sum / (l.length : ℚ)

/-- Square of `ratings.std()` (pandas `ddof=1`): NaN (`none`) when the
count is at most 1, else the squared deviations divided by `n − 1`. -/
def ratings_std_sq (l : List ℚ) : Option ℚ :=
  if l.length ≤ 1 then none
  else some ((l.map (fun x => (x - ratings_mean l) ^ 2)).sum / ((l.length : ℚ) - 1))

/-- Square of the *population* standard deviation, following the spec's
words (divisor `n`; NaN when the count is at most 1). Used only to compare
the spec's claim against `ratings_std_sq`. -/
def claim_pop_std_sq (l : List ℚ) : Option ℚ :=
  if l.length ≤ 1 then none
  else some ((l.map (fun x => (x - ratings_mean l) ^ 2)).sum / (l.length : ℚ))

/-! ## Product rows and the keyword sentiment extractor
(analyze_reviews_final.py:82-113, identically generate_final_charts.py:71-101) -/

/-- One source row, restricted to the three columns the extractor touches.
`none` models a null/NaN cell. -/
structure Row where
  product : String
  rating : Option ℚ
  review : Option String
deriving DecidableEq

/-- `product_df[rating_col] >= 4` (a null rating compares false). -/
def rating_ge4 (r : Row) : Bool :=
  match r.rating with
  | some q => decide (4 ≤ q)
  | none => false

/-- `product_df[rating_col] <= 2` (a null rating compares false). -/
def rating_le2 (r : Row) : Bool :=
  match r.rating with
  | some q => decide (q ≤ 2)
  | none => false

/-- `self.df[self.df[product_col] == product]`. -/
def product_rows (rows : List Row) (p : String) : List Row :=
  rows.filter (fun r => r.product == p)

/-- `good_reviews = product_df[product_df[rating_col] >= 4][review_col].dropna()`. -/
def good_reviews (rows : List Row) (p : String) : List String :=
  ((product_rows rows p).filter rating_ge4).filterMap (fun r => r.review)

/-- `bad_reviews = product_df[product_df[rating_col] <= 2][review_col].dropna()`. -/
def bad_reviews (rows : List Row) (p : String) : List String :=
  ((product_rows rows p).filter rating_le2).filterMap (fun r => r.review)

/-- `review_count = len(product_df)`. -/
def review_count (rows : List Row) (p : String) : ℕ :=
  (product_rows rows p).length

/-- `good_review_rate = len(good_reviews) / review_count * 100 if review_count > 0 else 0`
(analyze_reviews_final.py:112). -/
def good_review_rate (rows : List Row) (p : String) : ℚ :=
  if 0 < review_count rows p then
    ((good_reviews rows p).length : ℚ) / (review_count rows p : ℚ) * 100
  else 0

/-- The rate the spec's claim describes: the numerator counts every row of
the product with rating ≥ 4, whether or not its review text is null. -/
def claim_good_review_rate (rows : List Row) (p : String) : ℚ :=
  if 0 < review_count rows p then
    (((product_rows rows p).filter rating_ge4).length : ℚ) / (review_count rows p : ℚ) * 100
  else 0

/-- `positive_keywords` (analyze_reviews_final.py:64-71), in declaration
order, as (keyword, description) pairs. -/
def positive_keywords : List (String × String) :=
  [("quality", "质量优秀"), ("great", "表现优异"), ("excellent", "卓越性能"),
   ("perfect", "完美体验"), ("fast", "速度快"), ("amazing", "令人惊艳"),
   ("love", "用户喜爱"), ("best", "最佳选择"), ("good", "良好"),
   ("worth", "物有所值"), ("value", "高性价比"), ("recommend", "推荐"),
   ("powerful", "功能强大"), ("compact", "小巧便携"), ("durable", "耐用"),
   ("comfortable", "舒适"), ("clear", "清晰"), ("easy", "易用")]

/-- `negative_keywords` (analyze_reviews_final.py:73-80). -/
def negative_keywords : List (String × String) :=
  [("bad", "质量差"), ("poor", "表现不佳"), ("disappointed", "令人失望"),
   ("waste", "浪费"), ("broke", "损坏"), ("stopped", "停止工作"),
   ("problem", "存在问题"), ("issue", "有缺陷"), ("weak", "性能弱"),
   ("lost", "迷失/丢失"), ("fail", "失败"), ("not work", "不工作"),
   ("stuck", "卡住"), ("slow", "速度慢"), ("complaint", "投诉"),
   ("difficult", "困难"), ("complicated", "复杂"), ("delay", "延迟")]

/-- `sum(reviews.str.lower().str.contains(keyword, na=False))`: the number
of review texts whose lowercased form contains the keyword — one per row,
however often the keyword repeats inside a text. -/
def kw_count (texts : List String) (kw : String) : ℕ :=
  texts.countP (fun t => str_contains_sub kw (str_lower t))

/-- The spec's formulation of the same tally: a case-insensitive substring
match (both sides lowercased). Coincides with `kw_count` whenever the
keyword is already lowercase, which holds for both dictionaries. -/
def ci_kw_count (texts : List String) (kw : String) : ℕ :=
  texts.countP (fun t => str_contains_sub (str_lower kw) (str_lower t))

/-- The keyword loop (analyze_reviews_final.py:92-96 / 100-104): walk the
dictionary in declaration order, keep `(desc, count, keyword)` entries with
a positive count. -/
def kw_hits (dict : List (String × String)) (texts : List String) :
    List (String × ℕ × String) :=
  dict.filterMap (fun e =>
    let c := kw_count texts e.1
    if 0 < c then some (e.2, c, e.1) else none)

/-! ## Stable descending sort

Models both Python's `list.sort(key=..., reverse=True)` (Timsort, stable,
`reverse=True` does not reverse ties) and — per the modelling note at the
top of the file — pandas `sort_values` on one key, with ties left in the
input order. -/

/-- Insert `a` into a descending-sorted list, before the first element
whose score does not exceed `a`'s (so an element inserted later never
jumps over an equal-scored one that is already placed). -/
def insert_desc {α β : Type} [LinearOrder β] (score : α → β) (a : α) :
    List α → List α
  | [] => [a]
  | b :: l => if score b ≤ score a then a :: b :: l else b :: insert_desc score a l

/-- Stable descending insertion sort by `score`. -/
def sort_desc {α β : Type} [LinearOrder β] (score : α → β) : List α → List α
  | [] => []
  | x :: xs => insert_desc score x (sort_desc score xs)

/-- The ordering a stable descending sort guarantees: strictly larger score
first, equal scores in ascending order of the secondary observation `key`
(for inputs listed in ascending `key` order). -/
def slex {α β κ : Type} [LinearOrder β] [LinearOrder κ]
    (score : α → β) (key : α → κ) (x y : α) : Prop :=
  score y < score x ∨ (score x = score y ∧ key x < key y)

/-- The final ranked keyword list: `pros.sort(key=lambda x: x[1], reverse=True)`
then `pros[:5]` / `cons[:3]` truncation is applied by the caller. -/
def ranked_hits (dict : List (String × String)) (texts : List String) :
    List (String × ℕ × String) :=
  sort_desc (fun e => e.2.1) (kw_hits dict texts)

/-- `self.product_insights[product]['pros']` (analyze_reviews_final.py:110). -/
def product_pros (rows : List Row) (p : String) : List (String × ℕ × String) :=
  (ranked_hits positive_keywords (good_reviews rows p)).take 5

/-- `self.product_insights[product]['cons']` (analyze_reviews_final.py:111). -/
def product_cons (rows : List Row) (p : String) : List (String × ℕ × String) :=
  (ranked_hits negative_keywords (bad_reviews rows p)).take 3

/-! ## Per-dimension aggregation (analyze_reviews.py:224-234 and 271-277,
generate_region_chart.py:36-40)

`groupby(dim)[rating].agg(['mean','count'])` produces one record per
distinct non-null dimension value, keys in ascending order; `mean` is the
mean of the group's non-null ratings (NaN for a group with none — modelled
as `⊥` of `WithBot ℚ`, which `sort_values(ascending=False)` places last,
matching `na_position='last'`), `count` the number of non-null ratings. -/

/-- One `(key, mean, count)` record of a `groupby(...).agg(['mean','count'])`. -/
structure GroupAgg where
  key : String
  mean : WithBot ℚ
  count : ℕ
deriving DecidableEq

/-- The group's non-null ratings. -/
def group_ratings (pairs : List (String × Option ℚ)) (k : String) : List ℚ :=
  (pairs.filter (fun e => e.1 == k)).filterMap (fun e => e.2)

/-- The ascending key list `groupby` iterates over. -/
def group_keys (pairs : List (String × Option ℚ)) : List String :=
  List.insertionSort (fun a b => a ≤ b) ((pairs.map (fun e => e.1)).dedup)

/-- `groupby(dim)[rating].agg(['mean','count'])`, keys ascending. -/
def groupby_agg (pairs : List (String × Option ℚ)) : List GroupAgg :=
  (group_keys pairs).map (fun k =>
    let rs := group_ratings pairs k
    ⟨k, if rs.length = 0 then ⊥ else ((ratings_mean rs : ℚ) : WithBot ℚ), rs.length⟩)

/-- `.sort_values('mean', ascending=False)` on the grouped records
(analyze_reviews.py:226 and 273). -/
def agg_by_dimension (pairs : List (String × Option ℚ)) : List GroupAgg :=
  sort_desc (fun g => g.mean) (groupby_agg pairs)

/-- `region_stats.sort_values('Count', ascending=False)`
(generate_region_chart.py:40). -/
def region_stats_by_count (pairs : List (String × Option ℚ)) : List GroupAgg :=
  sort_desc (fun g => g.count) (groupby_agg pairs)

/-- Adjacent-pair check of the order the claim asserts: descending mean,
ties by descending count, remaining ties by ascending key. -/
def claim_dim_order : List GroupAgg → Bool
  | [] => true
  | [_] => true
  | a :: b :: l =>
      (decide (b.mean < a.mean) ||
        (decide (a.mean = b.mean) &&
          (decide (b.count < a.count) ||
            (a.count == b.count && decide (a.key < b.key))))) &&
      claim_dim_order (b :: l)

/-! ## Period-over-period burst detection (analyze_reviews.py:334-342)

`monthly_counts.pct_change()` maps the chronological month counts to
relative changes, NaN for the first period; entries with change `> 2`
(more than 200% growth) each produce one finding naming the later period
and the growth percentage. -/

/-- `pct_change()` over labelled counts: `none` for the first period, then
`(current − previous) / previous` for each later period. -/
def pct_changes (ms : List (String × ℕ)) : List (String × Option ℚ) :=
  match ms with
  | [] => []
  | m0 :: rest =>
      (m0.1, none) ::
        List.zipWith (fun a b => (b.1, some (((b.2 : ℚ) - (a.2 : ℚ)) / (a.2 : ℚ))))
          (m0 :: rest) rest

/-- The BurstGrowth rule body: guarded by `len(monthly_counts) > 1`, keeps
the transitions with growth rate `> 2`, reporting the later period's label
and the rate as a percentage. -/
def burst_growth (ms : List (String × ℕ)) : List (String × ℚ) :=
  if 1 < ms.length then
    (pct_changes ms).filterMap (fun e =>
      match e.2 with
      | some r => if 2 < r then some (e.1, r * 100) else none
      | none => none)
  else []

/-- The spec's formulation: one finding per consecutive transition whose
later count is more than triple the earlier one (growth strictly above
200%), naming the later period and the growth percentage. -/
def claim_burst_growth (ms : List (String × ℕ)) : List (String × ℚ) :=
  (List.zipWith (fun a b => (a, b)) ms ms.tail).filterMap (fun e =>
    if 3 * e.1.2 < e.2.2 then
      some (e.2.1, ((e.2.2 : ℚ) - (e.1.2 : ℚ)) / (e.1.2 : ℚ) * 100)
    else none)

/-! ## Insight synthesis (analyze_reviews.py:486-511)

The insights are strings in the source; they are modelled as tagged values
carrying the same decision data. Input: the stored mean, the stored
distribution (`value_counts().to_dict()`, so keys are distinct), and the
number of anomalies found. -/

/-- The four satisfaction tiers of the `if/elif` chain. -/
inductive SatLevel
  | veryHigh
  | good
  | moderate
  | low
deriving DecidableEq

/-- One synthesized insight. -/
inductive Insight
  | satisfaction (lvl : SatLevel)
  | polarization
  | anomalySummary (n : ℕ)
deriving DecidableEq

/-- Whether an insight is the satisfaction one. -/
def Insight.isSatisfaction : Insight → Bool
  | .satisfaction _ => true
  | _ => false

/-- The `if/elif` chain on the mean (analyze_reviews.py:491-498). -/
def sat_level (m : ℚ) : SatLevel :=
  if 9/2 ≤ m then .veryHigh
  else if 4 ≤ m then .good
  else if 3 ≤ m then .moderate
  else .low

/-- Python `dist.get(k, 0)` on the distribution association list. -/
def dist_get (dist : List (ℚ × ℕ)) (k : ℚ) : ℕ :=
  ((dist.find? (fun e => e.1 == k)).map (fun e => e.2)).getD 0

/-- Python `k in dist`. -/
def dist_has (dist : List (ℚ × ℕ)) (k : ℚ) : Bool :=
  (dist.find? (fun e => e.1 == k)).isSome

/-- Python `sum(dist.values())`. -/
def dist_total (dist : List (ℚ × ℕ)) : ℕ :=
  (dist.map (fun e => e.2)).sum

/-- `generate_insights` (analyze_reviews.py:486-511) for a present rating
aggregate: the satisfaction insight, then the polarization warning when
both the 5 and 1 buckets exist and their combined share exceeds 0.6, then
the anomaly-count insight when any anomaly was found. -/
def generate_insights (m : ℚ) (dist : List (ℚ × ℕ)) (anomalies : ℕ) :
    List Insight :=
  [Insight.satisfaction (sat_level m)] ++
  (if dist_has dist 5 && dist_has dist 1 then
    (if ((dist_get dist 5 : ℚ) + (dist_get dist 1 : ℚ)) / (dist_total dist : ℚ) > 3/5
      then [Insight.polarization] else [])
  else []) ++
  (if 0 < anomalies then [Insight.anomalySummary anomalies] else [])

/-! ## The anomaly detector over a whole table (analyze_reviews.py:284-359)

Columns carry their pandas dtype (only "is it `datetime64[ns]`" matters to
the code) and a value list. A `dt` value carries its `to_period('M')`
month label together with an abstract integer timestamp. The derived
`year_month` column exists exactly when `analyze_trends` found a datetime
column, i.e. iff the table has one, which the model bakes in. -/

/-- The only dtype distinction the detector makes. -/
inductive DType
  | datetime
  | other
deriving DecidableEq

/-- One cell value. -/
inductive Val
  | num (q : ℚ)
  | str (s : String)
  | dt (ym : String) (t : ℤ)
  | null
deriving DecidableEq

/-- One column of the data frame. -/
structure Col where
  name : String
  dtype : DType
  vals : List Val
deriving DecidableEq

/-- A cell as an optional number (non-numeric cells behave as null for the
rating rule's `value_counts`). -/
def val_num : Val → Option ℚ
  | .num q => some q
  | _ => none

/-- A cell as optional text (comment columns are modelled as text-or-null). -/
def val_str : Val → Option String
  | .str s => some s
  | _ => none

/-- A cell's month bucket, when it is a timestamp. -/
def val_month : Val → Option String
  | .dt ym _ => some ym
  | _ => none

/-- A cell's timestamp, when it is one. -/
def val_time : Val → Option ℤ
  | .dt _ t => some t
  | _ => none

/-- Whether a cell is null. -/
def val_is_null : Val → Bool
  | .null => true
  | _ => false

/-- Rating-column name heuristic of the detector (analyze_reviews.py:295):
`'rating' in col.lower() or 'star' in col.lower() or '星' in col`. -/
def name_matches_rating (n : String) : Bool :=
  str_contains_sub "rating" (str_lower n) || str_contains_sub "star" (str_lower n) ||
    str_contains_sub "星" n

/-- Comment-column name heuristic (analyze_reviews.py:307-308). -/
def name_matches_comment (n : String) : Bool :=
  str_contains_sub "comment" (str_lower n) || str_contains_sub "review" (str_lower n) ||
    str_contains_sub "评论" n || str_contains_sub "内容" n

/-- First column matching the rating heuristic. -/
def find_rating_col (t : List Col) : Option Col :=
  t.find? (fun c => name_matches_rating c.name)

/-- First column of the comment heuristic (`comment_cols[0]`). -/
def find_comment_col (t : List Col) : Option Col :=
  t.find? (fun c => name_matches_comment c.name)

/-- The columns of dtype `datetime64[ns]` (analyze_reviews.py:326). -/
def date_cols (t : List Col) : List Col :=
  t.filter (fun c => c.dtype == DType.datetime)

/-- One anomaly finding with its numeric evidence. -/
inductive Finding
  | ratingConcentration (v : ℚ) (pct : ℚ)
  | duplicateReviews (n : ℕ) (rate : ℚ)
  | futureDate (n : ℕ)
  | burstGrowth (period : String) (pct : ℚ)
  | highMissingRate (col : String) (pct : ℚ)
deriving DecidableEq

/-- Whether a finding is a FutureDate one. -/
def Finding.isFutureDate : Finding → Bool
  | .futureDate _ => true
  | _ => false

/-- Whether a finding is a BurstGrowth one. -/
def Finding.isBurstGrowth : Finding → Bool
  | .burstGrowth _ _ => true
  | _ => false

/-- Whether a finding is a RatingConcentration one. -/
def Finding.isRatingConcentration : Finding → Bool
  | .ratingConcentration _ _ => true
  | _ => false

/-- Whether a finding is a DuplicateReviews one. -/
def Finding.isDuplicateReviews : Finding → Bool
  | .duplicateReviews _ _ => true
  | _ => false

/-- `len(future_dates)` (analyze_reviews.py:330). -/
def future_count (c : Col) (now : ℤ) : ℕ :=
  (c.vals.filterMap val_time).countP (fun t => decide (now < t))

/-- `self.df.groupby('year_month').size()` from the first datetime column:
month labels in ascending (chronological) order with their row tallies;
rows whose date is null are dropped by `groupby`. -/
def monthly_counts (c : Col) : List (String × ℕ) :=
  let months := c.vals.filterMap val_month
  (List.insertionSort (fun a b => a ≤ b) months.dedup).map
    (fun k => (k, months.count k))

/-- Rule 3 of the detector (analyze_reviews.py:326-342): future dates, then
burst growth over the monthly counts. -/
def date_findings (c : Col) (now : ℤ) : List Finding :=
  (if 0 < future_count c now then [Finding.futureDate (future_count c now)] else []) ++
  (burst_growth (monthly_counts c)).map (fun e => Finding.burstGrowth e.1 e.2)

/-- Rule 5 (analyze_reviews.py:345-348): a finding per column whose null
rate exceeds 0.3. -/
def missing_finding (c : Col) : Option Finding :=
  let rate := (c.vals.countP val_is_null : ℚ) / (c.vals.length : ℚ)
  if rate > 3/10 then some (Finding.highMissingRate c.name (rate * 100)) else none

/-- `detect_anomalies` (analyze_reviews.py:284-359): the four data rules in
evaluation order, each skipped when its column is unresolved. -/
def detect_anomalies (t : List Col) (now : ℤ) : List Finding :=
  (match find_rating_col t with
   | some c =>
      match rating_concentration (c.vals.map val_num) with
      | some e => [Finding.ratingConcentration e.1 e.2]
      | none => []
   | none => []) ++
  (match find_comment_col t with
   | some c =>
      match duplicate_reviews (c.vals.map val_str) with
      | some e => [Finding.duplicateReviews e.1 e.2]
      | none => []
   | none => []) ++
  (match date_cols t with
   | c :: _ => date_findings c now
   | [] => []) ++
  (t.filterMap missing_finding)

/-! # Theorems -/

/-! ## C2 — the flat aggregate's standard deviation -/

/-- C2 counterexample: on the ratings `[1, 5]` the code's squared standard
deviation is `8` (sample, divisor `n − 1`) while the population squared
standard deviation the claim asserts is `4`; hence the reported standard
deviation (`√8`) is not the population one (`2`). -/
theorem ratings_std_sq_ne_population :
    ratings_std_sq [(1 : ℚ), 5] = some 8 ∧ claim_pop_std_sq [(1 : ℚ), 5] = some 4 ∧
      ratings_std_sq [(1 : ℚ), 5] ≠ claim_pop_std_sq [(1 : ℚ), 5] := by
  refine ⟨?_, ?_, ?_⟩ <;> norm_num [ratings_std_sq, claim_pop_std_sq, ratings_mean]

/-- C2 (amended): the flat rating aggregate's standard deviation is the
*sample* standard deviation (squared value = squared deviations divided by
`n − 1`), and when the non-null rating count is at most 1 it is NaN
(undefined), not zero. -/
theorem ratings_std_sq_spec (l : List ℚ) :
    (l.length ≤ 1 → ratings_std_sq l = none) ∧
    (2 ≤ l.length → ∃ v, ratings_std_sq l = some v ∧
      v * ((l.length : ℚ) - 1) = (l.map (fun x => (x - ratings_mean l) ^ 2)).sum) := by
  constructor
  · intro h
    simp [ratings_std_sq, h]
  · intro h
    have hgt : ¬ l.length ≤ 1 := by omega
    have h2 : (2 : ℚ) ≤ (l.length : ℚ) := by exact_mod_cast h
    have hne : ((l.length : ℚ) - 1) ≠ 0 := by linarith
    refine ⟨(l.map (fun x => (x - ratings_mean l) ^ 2)).sum / ((l.length : ℚ) - 1), ?_, ?_⟩
    · simp [ratings_std_sq, hgt]
    · field_simp

/-- C2 witness: the amended statement evaluated on the ratings `[1, 5]`. -/
theorem ratings_std_sq_spec_witness :
    ∃ v, ratings_std_sq [(1 : ℚ), 5] = some v ∧
      v * ((([(1 : ℚ), 5].length : ℕ) : ℚ) - 1) =
        ([(1 : ℚ), 5].map (fun x => (x - ratings_mean [(1 : ℚ), 5]) ^ 2)).sum :=
  (ratings_std_sq_spec [(1 : ℚ), 5]).2 (by norm_num)

/-! ## C3 — the good-review rate -/

/-- The length of a `filterMap` is the number of elements on which the
function succeeds. -/
theorem length_filterMap_eq_countP {α β : Type} (f : α → Option β) (l : List α) :
    (l.filterMap f).length = l.countP (fun a => (f a).isSome) := by
  induction l with
  | nil => rfl
  | cons x xs ih =>
      cases h : f x <;>
        simp [List.filterMap_cons, h, List.countP_cons, ih]

/-- C3 counterexample: a product with two rating-5 rows, one of which has a
null review text. The code reports a 50% good-review rate (the null-text
row is dropped from the numerator) while the claim's formula gives 100%. -/
theorem good_review_rate_cex :
    good_review_rate [⟨"P", some 5, some "great"⟩, ⟨"P", some 5, none⟩] "P" = 50 ∧
    claim_good_review_rate [⟨"P", some 5, some "great"⟩, ⟨"P", some 5, none⟩] "P" = 100 ∧
    good_review_rate [⟨"P", some 5, some "great"⟩, ⟨"P", some 5, none⟩] "P" ≠
      claim_good_review_rate [⟨"P", some 5, some "great"⟩, ⟨"P", some 5, none⟩] "P" := by
  refine ⟨?_, ?_, ?_⟩ <;>
    norm_num [good_review_rate, claim_good_review_rate, good_reviews, review_count,
      product_rows, rating_ge4, List.filter, List.filterMap]

/-- C3 (amended): the good-review rate's numerator counts the product's
rows having rating ≥ 4 *and* a non-null review text, divided by the
product's total row count, times 100, with 0 when the total is zero. -/
theorem good_review_rate_spec (rows : List Row) (p : String) :
    good_review_rate rows p =
      if 0 < review_count rows p then
        ((product_rows rows p).countP (fun r => rating_ge4 r && r.review.isSome) : ℚ)
          / (review_count rows p : ℚ) * 100
      else 0 := by
  have hlen : (good_reviews rows p).length =
      (product_rows rows p).countP (fun r => rating_ge4 r && r.review.isSome) := by
    rw [good_reviews, length_filterMap_eq_countP, List.countP_filter]
    exact List.countP_congr (fun r _ => by rw [Bool.and_comm])
  rw [good_review_rate, hlen]

/-- C3 witness: the amended statement evaluated on a product with one
good row with text and one good row with a null text. -/
theorem good_review_rate_spec_witness :
    good_review_rate [⟨"P", some 5, some "great"⟩, ⟨"P", some 5, none⟩] "P" =
      if 0 < review_count [⟨"P", some 5, some "great"⟩, ⟨"P", some 5, none⟩] "P" then
        ((product_rows [⟨"P", some 5, some "great"⟩, ⟨"P", some 5, none⟩] "P").countP
            (fun r => rating_ge4 r && r.review.isSome) : ℚ)
          / (review_count [⟨"P", some 5, some "great"⟩, ⟨"P", some 5, none⟩] "P" : ℚ) * 100
      else 0 :=
  good_review_rate_spec [⟨"P", some 5, some "great"⟩, ⟨"P", some 5, none⟩] "P"

/-! ## C5, C10 — duplicate counting -/

/-- Invariant of the `duplicated()` walk: the marked cells plus the values
of the column not yet seen account for every cell. -/
theorem dup_count_aux_add_card (l : List (Option String)) :
    ∀ seen : List (Option String),
      dup_count_aux seen l + (l.toFinset \ seen.toFinset).card = l.length := by
  induction l with
  | nil => intro seen; simp [dup_count_aux]
  | cons x xs ih =>
      intro seen
      by_cases hx : x ∈ seen
      · have hsub : (x :: seen).toFinset = seen.toFinset := by
          simp [List.toFinset_cons, Finset.insert_eq_self, List.mem_toFinset, hx]
        have h1 : ((x :: xs).toFinset \ seen.toFinset) = xs.toFinset \ seen.toFinset := by
          rw [List.toFinset_cons]
          exact Finset.insert_sdiff_of_mem _ (List.mem_toFinset.mpr hx)
        have h2 := ih (x :: seen)
        rw [hsub] at h2
        simp only [dup_count_aux, if_pos hx, h1, List.length_cons]
        omega
      · have hxF : x ∉ seen.toFinset := fun h => hx (List.mem_toFinset.mp h)
        have h1 : ((x :: xs).toFinset \ seen.toFinset) =
            insert x (xs.toFinset \ seen.toFinset) := by
          rw [List.toFinset_cons]
          exact Finset.insert_sdiff_of_not_mem _ hxF
        have h2 := ih (x :: seen)
        have h3 : xs.toFinset \ (x :: seen).toFinset =
            (xs.toFinset \ seen.toFinset).erase x := by
          rw [List.toFinset_cons, Finset.sdiff_insert]
        rw [h3] at h2
        have h4 : (insert x (xs.toFinset \ seen.toFinset)).card =
            ((xs.toFinset \ seen.toFinset).erase x).card + 1 := by
          by_cases hxB : x ∈ xs.toFinset \ seen.toFinset
          · rw [Finset.insert_eq_self.mpr hxB]
            exact (Finset.card_erase_add_one hxB).symm
          · rw [Finset.card_insert_of_not_mem hxB, Finset.erase_eq_of_not_mem hxB]
        simp only [dup_count_aux, if_neg hx, List.length_cons, h1, h4]
        omega

/-- The spec-side sum also accounts for every cell once the distinct
values are added back. -/
theorem claim_dup_count_add_card (l : List (Option String)) :
    claim_dup_count l + l.toFinset.card = l.length := by
  have hbr : ∀ (a : Option String) (t : List (Option String)),
      @List.count (Option String) instBEqOfDecidableEq a t = t.count a := by
    intro a t
    induction t with
    | nil => rfl
    | cons x t ih => simp [List.count_cons, ih, beq_iff_eq]
  have hsum : ∑ a ∈ l.toFinset, l.count a = l.length := by
    have h := List.sum_toFinset_count_eq_length l
    simpa [hbr] using h
  have hfs : l.dedup.toFinset = l.toFinset :=
    Finset.ext fun a => by simp [List.mem_toFinset, List.mem_dedup]
  have hdedup : l.toFinset.sum (fun v => l.count v - 1) =
      (l.dedup.map (fun v => l.count v - 1)).sum := by
    rw [← hfs]
    exact List.sum_toFinset _ (List.nodup_dedup l)
  have hsplit : ∑ a ∈ l.toFinset, l.count a =
      (∑ a ∈ l.toFinset, (l.count a - 1)) + l.toFinset.card := by
    rw [Finset.card_eq_sum_ones, ← Finset.sum_add_distrib]
    refine Finset.sum_congr rfl (fun a ha => ?_)
    have : 0 < l.count a := List.count_pos_iff.mpr (List.mem_toFinset.mp ha)
    omega
  rw [claim_dup_count, ← hdedup]
  omega

/-- `duplicated().sum()` equals the spec's sum of `(occurrences − 1)` over
the distinct values. -/
theorem duplicated_sum_eq_claim (l : List (Option String)) :
    duplicated_sum l = claim_dup_count l := by
  have h1 := dup_count_aux_add_card l []
  have h2 := claim_dup_count_add_card l
  simp only [List.toFinset_nil, Finset.sdiff_empty, duplicated_sum] at h1 ⊢
  omega

/-- C5: the DuplicateReviews count equals the sum over each distinct
review-text value of `(occurrences − 1)` for values occurring more than
once (pandas `.duplicated()` semantics), and an all-unique column yields a
zero count and no finding. -/
theorem duplicate_reviews_spec (l : List (Option String)) :
    duplicated_sum l = claim_dup_count l ∧
    (l.Nodup → duplicated_sum l = 0 ∧ duplicate_reviews l = none) := by
  refine ⟨duplicated_sum_eq_claim l, fun hnd => ?_⟩
  have h1 := dup_count_aux_add_card l []
  simp only [List.toFinset_nil, Finset.sdiff_empty] at h1
  have hcard : l.toFinset.card = l.length := List.toFinset_card_of_nodup hnd
  have hz : duplicated_sum l = 0 := by
    simp only [duplicated_sum]
    omega
  exact ⟨hz, by simp [duplicate_reviews, hz]⟩

/-- C5 witness: a two-value all-unique column. -/
theorem duplicate_reviews_spec_witness :
    duplicated_sum [some "a", some "b"] = claim_dup_count [some "a", some "b"] ∧
      (duplicated_sum [some "a", some "b"] = 0 ∧
        duplicate_reviews [some "a", some "b"] = none) :=
  ⟨(duplicate_reviews_spec [some "a", some "b"]).1,
    (duplicate_reviews_spec [some "a", some "b"]).2 (by decide)⟩

/-- C10: null review texts compare equal to each other in the
DuplicateReviews rule — all null occurrences after the first count as
duplicates, and two or more nulls fire the finding by themselves. -/
theorem duplicate_reviews_nulls (l : List (Option String)) :
    l.count none - 1 ≤ duplicated_sum l ∧
    (2 ≤ l.count none → 0 < duplicated_sum l ∧ (duplicate_reviews l).isSome) := by
  have key : l.count none - 1 ≤ duplicated_sum l := by
    rcases Nat.eq_zero_or_pos (l.count none) with h0 | hpos
    · simp [h0]
    · have hmem : (none : Option String) ∈ l := List.count_pos_iff.mp hpos
      have hdd : (none : Option String) ∈ l.dedup := List.mem_dedup.mpr hmem
      have hmm : l.count (none : Option String) - 1 ∈
          l.dedup.map (fun v => l.count v - 1) :=
        List.mem_map.mpr ⟨none, hdd, rfl⟩
      have hle := List.single_le_sum (l := l.dedup.map (fun v => l.count v - 1))
        (fun x _ => Nat.zero_le x) _ hmm
      calc l.count (none : Option String) - 1
          ≤ (l.dedup.map (fun v => l.count v - 1)).sum := hle
        _ = claim_dup_count l := by unfold claim_dup_count; rfl
        _ = duplicated_sum l := (duplicated_sum_eq_claim l).symm
  refine ⟨key, fun h2 => ?_⟩
  have hpos : 0 < duplicated_sum l := by omega
  exact ⟨hpos, by simp [duplicate_reviews, hpos]⟩

/-- C10 witness: a column holding exactly two nulls. -/
theorem duplicate_reviews_nulls_witness :
    List.count (none : Option String) [none, none] - 1 ≤
        duplicated_sum ([none, none] : List (Option String)) ∧
      (0 < duplicated_sum ([none, none] : List (Option String)) ∧
        (duplicate_reviews [none, none]).isSome) :=
  ⟨(duplicate_reviews_nulls [none, none]).1,
    (duplicate_reviews_nulls [none, none]).2 (by decide)⟩

/-! ## C1 — rating concentration -/

/-- Any member of a list of naturals is bounded by the `foldr max 0`. -/
theorem le_foldr_max (L : List ℕ) (a : ℕ) (h : a ∈ L) : a ≤ L.foldr max 0 := by
  induction L with
  | nil => cases h
  | cons b T ih =>
      rcases List.mem_cons.mp h with rfl | hT
      · exact le_max_left _ _
      · exact le_trans (ih hT) (le_max_right _ _)

/-- The `foldr max 0` of a list of naturals is zero or a member. -/
theorem foldr_max_mem (L : List ℕ) : L.foldr max 0 = 0 ∨ L.foldr max 0 ∈ L := by
  induction L with
  | nil => exact Or.inl rfl
  | cons b T ih =>
      rcases le_total b (T.foldr max 0) with hb | hb
      · rcases ih with h0 | hm
        · rcases Nat.eq_zero_of_le_zero (h0 ▸ hb) with rfl
          simp [h0]
        · right
          rw [List.foldr_cons, max_eq_right hb]
          exact List.mem_cons_of_mem _ hm
      · right
        rw [List.foldr_cons, max_eq_left hb]
        exact List.mem_cons_self _ _

/-- Every single-value tally is bounded by `value_counts().max()`. -/
theorem count_le_value_counts_max (l : List (Option ℚ)) (v : ℚ) :
    l.count (some v) ≤ value_counts_max l := by
  by_cases hv : some v ∈ l
  · have h1 : v ∈ nonnull_vals l := by
      simp only [nonnull_vals, List.mem_filterMap, id]
      exact ⟨some v, hv, rfl⟩
    have h2 : v ∈ (nonnull_vals l).dedup := List.mem_dedup.mpr h1
    exact le_foldr_max _ _ (List.mem_map.mpr ⟨v, h2, rfl⟩)
  · rw [List.count_eq_zero_of_not_mem hv]
    exact Nat.zero_le _

/-- A positive `value_counts().max()` is attained by some non-null value. -/
theorem value_counts_max_attained (l : List (Option ℚ))
    (h : 0 < value_counts_max l) :
    ∃ v : ℚ, some v ∈ l ∧ l.count (some v) = value_counts_max l := by
  rcases foldr_max_mem ((nonnull_vals l).dedup.map (fun v => l.count (some v))) with h0 | hm
  · rw [value_counts_max] at h
    omega
  · rcases List.mem_map.mp hm with ⟨v, hv, hcv⟩
    have h1 : v ∈ nonnull_vals l := List.mem_dedup.mp hv
    rcases List.mem_filterMap.mp h1 with ⟨a, ha, hav⟩
    have ha2 : a = some v := hav
    exact ⟨v, ha2 ▸ ha, hcv⟩

/-- C1 (amended): the RatingConcentration finding is emitted iff the count
of the single most frequent non-null rating value divided by the *total
row count* (`len(self.df)`, null ratings included) strictly exceeds 0.70,
and any emitted finding names a dominant value (one of maximal tally) and
its percentage of the total row count. -/
theorem rating_concentration_spec (l : List (Option ℚ)) :
    ((rating_concentration l).isSome ↔
      ∃ v : ℚ, some v ∈ l ∧ (∀ w : ℚ, l.count (some w) ≤ l.count (some v)) ∧
        (7 : ℚ)/10 < (l.count (some v) : ℚ) / (l.length : ℚ)) ∧
    (∀ d pct, rating_concentration l = some (d, pct) →
      some d ∈ l ∧ (∀ w : ℚ, l.count (some w) ≤ l.count (some d)) ∧
        pct = (l.count (some d) : ℚ) / (l.length : ℚ) * 100) := by
  have hpos_of_cond : (7 : ℚ)/10 < (value_counts_max l : ℚ) / (l.length : ℚ) →
      0 < value_counts_max l := by
    intro hc
    by_contra h0
    have hM : value_counts_max l = 0 := by omega
    rw [hM] at hc
    norm_num at hc
  constructor
  · constructor
    · intro hs
      rw [rating_concentration] at hs
      by_cases hc : (7 : ℚ)/10 < (value_counts_max l : ℚ) / (l.length : ℚ)
      · rcases value_counts_max_attained l (hpos_of_cond hc) with ⟨v, hv, hcv⟩
        exact ⟨v, hv, fun w => hcv ▸ count_le_value_counts_max l w, by rw [hcv]; exact hc⟩
      · simp [if_neg hc] at hs
    · rintro ⟨v, hv, hmax, hshare⟩
      have hMv : value_counts_max l = l.count (some v) :=
        le_antisymm
          (by
            rcases Nat.eq_zero_or_pos (value_counts_max l) with h0 | hp
            · omega
            · rcases value_counts_max_attained l hp with ⟨u, _, hcu⟩
              rw [← hcu]
              exact hmax u)
          (count_le_value_counts_max l v)
      have hc : (7 : ℚ)/10 < (value_counts_max l : ℚ) / (l.length : ℚ) := by
        rw [hMv]; exact hshare
      rcases value_counts_max_attained l (hpos_of_cond hc) with ⟨u, hu, hcu⟩
      have hfind : (idxmax l).isSome := by
        rw [idxmax, List.find?_isSome]
        refine ⟨u, List.mem_dedup.mpr ?_, by simp [hcu]⟩
        simp only [nonnull_vals, List.mem_filterMap, id]
        exact ⟨some u, hu, rfl⟩
      rw [rating_concentration, if_pos hc]
      rcases Option.isSome_iff_exists.mp hfind with ⟨d, hd⟩
      rw [hd]
      rfl
  · intro d pct hsome
    rw [rating_concentration] at hsome
    by_cases hc : (7 : ℚ)/10 < (value_counts_max l : ℚ) / (l.length : ℚ)
    · rw [if_pos hc] at hsome
      cases hix : idxmax l with
      | none => rw [hix] at hsome; cases hsome
      | some d0 =>
          rw [hix] at hsome
          have hdd : d0 = d ∧ (value_counts_max l : ℚ) / (l.length : ℚ) * 100 = pct := by
            have := hsome
            injection this with h1
            injection h1 with ha hb
            exact ⟨ha, hb⟩
          rcases hdd with ⟨rfl, hpct⟩
          have hfd := List.find?_some hix
          have hmem := List.mem_of_find?_eq_some hix
          have hcd : l.count (some d0) = value_counts_max l := by
            simpa using hfd
          have hmem' : some d0 ∈ l := by
            have h1 : d0 ∈ nonnull_vals l := List.mem_dedup.mp hmem
            rcases List.mem_filterMap.mp h1 with ⟨a, ha, hav⟩
            have ha2 : a = some d0 := hav
            exact ha2 ▸ ha
          refine ⟨hmem', fun w => hcd ▸ count_le_value_counts_max l w, ?_⟩
          rw [← hpct, hcd]
    · rw [if_neg hc] at hsome
      cases hsome

/-- C1 witness: the ratings `[5, 5, 5, 5, 1]` of the spec's own scenario
(4/5 = 0.80 > 0.70) make the finding fire, naming value 5. -/
theorem rating_concentration_spec_witness :
    (rating_concentration [some 5, some 5, some 5, some 5, some 1]).isSome ∧
      ∀ d pct,
        rating_concentration [some 5, some 5, some 5, some 5, some 1] = some (d, pct) →
          some d ∈ [some (5 : ℚ), some 5, some 5, some 5, some 1] ∧
          (∀ w : ℚ,
            List.count (some w) [some (5 : ℚ), some 5, some 5, some 5, some 1] ≤
              List.count (some d) [some (5 : ℚ), some 5, some 5, some 5, some 1]) ∧
          pct = (List.count (some d) [some (5 : ℚ), some 5, some 5, some 5, some 1] : ℚ)
            / (([some (5 : ℚ), some 5, some 5, some 5, some 1].length : ℕ) : ℚ) * 100 :=
  ⟨((rating_concentration_spec [some 5, some 5, some 5, some 5, some 1]).1).mpr
      ⟨5, by decide, fun w => count_le_value_counts_max _ w |>.trans (by decide), by
        norm_num⟩,
    (rating_concentration_spec [some 5, some 5, some 5, some 5, some 1]).2⟩

/-- C1 counterexample: ratings `[5, 5, 5, null, null]`. The most frequent
value covers 3 of the 3 non-null ratings (share 1.0 > 0.70), so the claim
says the finding fires, but the code divides by `len(self.df) = 5`
(share 0.6) and emits nothing. -/
theorem rating_concentration_cex :
    rating_concentration [some 5, some 5, some 5, none, none] = none ∧
      (7 : ℚ)/10 <
        (value_counts_max [some 5, some 5, some 5, none, none] : ℚ) /
          ((nonnull_vals [some (5 : ℚ), some 5, some 5, none, none]).length : ℚ) := by
  have hM : value_counts_max [some 5, some 5, some 5, none, none] = 3 := by decide
  constructor
  · rw [rating_concentration, hM]
    norm_num
  · have h3 : (nonnull_vals [some (5 : ℚ), some 5, some 5, none, none]).length = 3 := by
      decide
    rw [hM, h3]
    norm_num

/-! ## C6 — burst growth -/

/-- A member of a pairing `zipWith` projects to members of both lists. -/
theorem mem_zipWith_pair {α β : Type} (l₁ : List α) (l₂ : List β) (p : α × β)
    (h : p ∈ List.zipWith (fun a b => (a, b)) l₁ l₂) : p.1 ∈ l₁ ∧ p.2 ∈ l₂ := by
  induction l₁ generalizing l₂ with
  | nil => cases h
  | cons a t ih =>
      cases l₂ with
      | nil => cases h
      | cons b s =>
          rcases List.mem_cons.mp h with rfl | hm
          · exact ⟨List.mem_cons_self _ _, List.mem_cons_self _ _⟩
          · rcases ih s hm with ⟨h1, h2⟩
            exact ⟨List.mem_cons_of_mem _ h1, List.mem_cons_of_mem _ h2⟩

/-- C6: with every observed period count positive (as `groupby(...).size()`
guarantees), the BurstGrowth findings are exactly the transitions whose
later count more than triples the prior one — one finding per qualifying
transition, naming the later period and the growth percentage — and every
finding names a period from the tail (never the very first period). -/
theorem burst_growth_spec (ms : List (String × ℕ)) (hpos : ∀ m ∈ ms, 0 < m.2) :
    burst_growth ms = claim_burst_growth ms ∧
      ∀ x ∈ burst_growth ms, x.1 ∈ ms.tail.map (fun m => m.1) := by
  have key : burst_growth ms = claim_burst_growth ms := by
    match ms with
    | [] => rfl
    | [m] => rfl
    | m0 :: m1 :: rest =>
        have hlen : 1 < (m0 :: m1 :: rest).length := by simp
        rw [burst_growth, if_pos hlen, pct_changes]
        rw [claim_burst_growth]
        simp only [List.tail_cons, List.filterMap_cons]
        have main : ∀ (a : String × ℕ) (t : List (String × ℕ)),
            0 < a.2 → (∀ m ∈ t, 0 < m.2) →
            (List.zipWith
                (fun a b => (b.1, some (((b.2 : ℚ) - (a.2 : ℚ)) / (a.2 : ℚ))))
                (a :: t) t).filterMap (fun e =>
                  match e.2 with
                  | some r => if 2 < r then some (e.1, r * 100) else none
                  | none => none) =
              (List.zipWith (fun a b => (a, b)) (a :: t) t).filterMap (fun e =>
                if 3 * e.1.2 < e.2.2 then
                  some (e.2.1, ((e.2.2 : ℚ) - (e.1.2 : ℚ)) / (e.1.2 : ℚ) * 100)
                else none) := by
          intro a t
          induction t generalizing a with
          | nil => intro _ _; rfl
          | cons b t ih =>
              intro ha ht
              have hb : 0 < b.2 := ht b (List.mem_cons_self _ _)
              have hiff : (2 < ((b.2 : ℚ) - (a.2 : ℚ)) / (a.2 : ℚ)) ↔
                  (3 * a.2 < b.2) := by
                have haq : (0 : ℚ) < (a.2 : ℚ) := by exact_mod_cast ha
                rw [lt_div_iff₀ haq]
                constructor
                · intro h
                  have : (3 * a.2 : ℚ) < (b.2 : ℚ) := by linarith
                  exact_mod_cast this
                · intro h
                  have : (3 * a.2 : ℚ) < (b.2 : ℚ) := by exact_mod_cast h
                  push_cast at this
                  linarith
              have htail := ih b hb (fun m hm => ht m (List.mem_cons_of_mem _ hm))
              simp only [List.zipWith_cons_cons, List.filterMap_cons, htail]
              by_cases hcase : 3 * a.2 < b.2
              · rw [if_pos hcase, if_pos (hiff.mpr hcase)]
              · rw [if_neg hcase, if_neg (fun hr => hcase (hiff.mp hr))]
        exact main m0 (m1 :: rest) (hpos m0 (List.mem_cons_self _ _))
          (fun m hm => hpos m (List.mem_cons_of_mem _ hm))
  refine ⟨key, fun x hx => ?_⟩
  rw [key, claim_burst_growth] at hx
  rcases List.mem_filterMap.mp hx with ⟨e, he, hex⟩
  have hmem : e.2 ∈ ms.tail := (mem_zipWith_pair ms ms.tail e he).2
  have hx1 : x.1 = e.2.1 := by
    by_cases hq : 3 * e.1.2 < e.2.2
    · rw [if_pos hq] at hex
      cases hex
      rfl
    · rw [if_neg hq] at hex
      cases hex
  rw [hx1]
  exact List.mem_map.mpr ⟨e.2, hmem, rfl⟩

/-- C6 witness: the spec's scenario, monthly counts `[10, 10, 35]` — only
the second transition fires, at +250%. -/
theorem burst_growth_spec_witness :
    burst_growth [("2024-01", 10), ("2024-02", 10), ("2024-03", 35)] =
      claim_burst_growth [("2024-01", 10), ("2024-02", 10), ("2024-03", 35)] ∧
    burst_growth [("2024-01", 10), ("2024-02", 10), ("2024-03", 35)] =
      [("2024-03", 250)] := by
  refine ⟨(burst_growth_spec _ (by decide)).1, ?_⟩
  rw [burst_growth]
  norm_num [pct_changes, List.zipWith, List.filterMap]

/-! ## C8 — insight synthesis -/

/-- C8: the insight list holds exactly one satisfaction insight, placed
first, with the tier picked by the thresholds 4.5 / 4.0 / 3.0; the
polarization insight appears iff both the 5 and 1 buckets exist and their
combined share strictly exceeds 60%; an anomaly-count insight appears iff
at least one anomaly was found, and then it is last. -/
theorem generate_insights_spec (m : ℚ) (dist : List (ℚ × ℕ)) (anomalies : ℕ) :
    (generate_insights m dist anomalies).countP Insight.isSatisfaction = 1 ∧
    (generate_insights m dist anomalies).head? =
      some (Insight.satisfaction (sat_level m)) ∧
    (sat_level m = SatLevel.veryHigh ↔ 9/2 ≤ m) ∧
    (sat_level m = SatLevel.good ↔ 4 ≤ m ∧ m < 9/2) ∧
    (sat_level m = SatLevel.moderate ↔ 3 ≤ m ∧ m < 4) ∧
    (sat_level m = SatLevel.low ↔ m < 3) ∧
    (Insight.polarization ∈ generate_insights m dist anomalies ↔
      (dist_has dist 5 = true ∧ dist_has dist 1 = true ∧
        3/5 < ((dist_get dist 5 : ℚ) + (dist_get dist 1 : ℚ)) / (dist_total dist : ℚ))) ∧
    ((∃ k, Insight.anomalySummary k ∈ generate_insights m dist anomalies) ↔
      0 < anomalies) ∧
    (0 < anomalies →
      (generate_insights m dist anomalies).getLast? =
        some (Insight.anomalySummary anomalies)) := by
  have hsat : (sat_level m = SatLevel.veryHigh ↔ 9/2 ≤ m) ∧
      (sat_level m = SatLevel.good ↔ 4 ≤ m ∧ m < 9/2) ∧
      (sat_level m = SatLevel.moderate ↔ 3 ≤ m ∧ m < 4) ∧
      (sat_level m = SatLevel.low ↔ m < 3) := by
    unfold sat_level
    split_ifs with h1 h2 h3
    · refine ⟨by simp [h1], ?_, ?_, ?_⟩ <;> simp <;> intros <;> linarith
    · refine ⟨by simpa using h1, ?_, ?_, ?_⟩
      · simp [h2]
        exact not_le.mp h1
      · simp
        intros
        linarith
      · simp
        linarith
    · refine ⟨by simpa using h1, ?_, ?_, ?_⟩
      · simp
        intro h
        exact absurd h h2
      · simp [h3]
        exact not_le.mp h2
      · simp
        linarith
    · refine ⟨by simpa using h1, ?_, ?_, by simpa using not_le.mp h3⟩
      · simp
        intro h
        exact absurd h h2
      · simp
        intro h
        exact absurd h h3
  by_cases hgate : (dist_has dist 5 && dist_has dist 1) = true
  · rcases Bool.and_eq_true_iff.mp hgate with ⟨hg5, hg1⟩
    by_cases hshare :
        ((dist_get dist 5 : ℚ) + (dist_get dist 1 : ℚ)) / (dist_total dist : ℚ) > 3/5
    · by_cases hanom : 0 < anomalies
      · refine ⟨?_, ?_, hsat.1, hsat.2.1, hsat.2.2.1, hsat.2.2.2, ?_, ?_, ?_⟩ <;>
          simp [generate_insights, hgate, if_pos hshare, hanom, Insight.isSatisfaction,
            hg5, hg1, hshare]
      · refine ⟨?_, ?_, hsat.1, hsat.2.1, hsat.2.2.1, hsat.2.2.2, ?_, ?_, ?_⟩ <;>
          simp [generate_insights, hgate, if_pos hshare, hanom, Insight.isSatisfaction,
            hg5, hg1, hshare]
    · by_cases hanom : 0 < anomalies
      · refine ⟨?_, ?_, hsat.1, hsat.2.1, hsat.2.2.1, hsat.2.2.2, ?_, ?_, ?_⟩ <;>
          simp [generate_insights, hgate, if_neg hshare, hanom, Insight.isSatisfaction,
            hshare]
      · refine ⟨?_, ?_, hsat.1, hsat.2.1, hsat.2.2.1, hsat.2.2.2, ?_, ?_, ?_⟩ <;>
          simp [generate_insights, hgate, if_neg hshare, hanom, Insight.isSatisfaction,
            hshare]
  · have hng : ¬ (dist_has dist 5 = true ∧ dist_has dist 1 = true ∧
        3/5 < ((dist_get dist 5 : ℚ) + (dist_get dist 1 : ℚ)) / (dist_total dist : ℚ)) := by
      rintro ⟨h5, h1, _⟩
      exact hgate (Bool.and_eq_true_iff.mpr ⟨h5, h1⟩)
    by_cases hanom : 0 < anomalies
    · refine ⟨?_, ?_, hsat.1, hsat.2.1, hsat.2.2.1, hsat.2.2.2, ?_, ?_, ?_⟩ <;>
        simp [generate_insights, hgate, hanom, Insight.isSatisfaction, hng]
    · refine ⟨?_, ?_, hsat.1, hsat.2.1, hsat.2.2.1, hsat.2.2.2, ?_, ?_, ?_⟩ <;>
        simp [generate_insights, hgate, hanom, Insight.isSatisfaction, hng]

/-- C8 witness: mean 4.6, distribution `{5: 3, 1: 2}` (share 1.0 > 0.6) and
2 anomalies — all three insights, in order. -/
theorem generate_insights_spec_witness :
    (generate_insights (46/10) [(5, 3), (1, 2)] 2).countP Insight.isSatisfaction = 1 ∧
    (generate_insights (46/10) [(5, 3), (1, 2)] 2).head? =
      some (Insight.satisfaction (sat_level (46/10))) ∧
    (0 < 2 →
      (generate_insights (46/10) [(5, 3), (1, 2)] 2).getLast? =
        some (Insight.anomalySummary 2)) :=
  ⟨(generate_insights_spec (46/10) [(5, 3), (1, 2)] 2).1,
    (generate_insights_spec (46/10) [(5, 3), (1, 2)] 2).2.1,
    fun _ => (generate_insights_spec (46/10) [(5, 3), (1, 2)] 2).2.2.2.2.2.2.2.2 (by norm_num)⟩

/-! ## C9 — rule skipping in the detector -/

/-- Shape of the date-rule findings: future-date or burst-growth only. -/
theorem mem_date_findings (c : Col) (now : ℤ) (f : Finding)
    (h : f ∈ date_findings c now) :
    (∃ n, f = Finding.futureDate n) ∨ ∃ p pct, f = Finding.burstGrowth p pct := by
  rw [date_findings] at h
  rcases List.mem_append.mp h with h | h
  · left
    split_ifs at h with hc
    · rcases List.mem_singleton.mp h with rfl
      exact ⟨_, rfl⟩
    · cases h
  · right
    rcases List.mem_map.mp h with ⟨e, _, rfl⟩
    exact ⟨_, _, rfl⟩

/-- Shape of the missing-rate findings. -/
theorem mem_missing_findings (t : List Col) (f : Finding)
    (h : f ∈ t.filterMap missing_finding) :
    ∃ c pct, f = Finding.highMissingRate c pct := by
  rcases List.mem_filterMap.mp h with ⟨c, _, hc⟩
  rw [missing_finding] at hc
  split_ifs at hc with hr
  exact ⟨c.name, _, (Option.some_inj.mp hc).symm⟩

/-- C9: the detector is total (modelled as a total function) and skips each
rule whose column role is unresolved: with no rating column no
RatingConcentration finding, with no comment column no DuplicateReviews
finding, and with no datetime column neither FutureDate nor BurstGrowth
findings appear in the returned list. -/
theorem detect_anomalies_skips (t : List Col) (now : ℤ) :
    (find_rating_col t = none →
      ∀ f ∈ detect_anomalies t now, f.isRatingConcentration = false) ∧
    (find_comment_col t = none →
      ∀ f ∈ detect_anomalies t now, f.isDuplicateReviews = false) ∧
    (date_cols t = [] →
      ∀ f ∈ detect_anomalies t now,
        f.isFutureDate = false ∧ f.isBurstGrowth = false) := by
  have split4 : ∀ f ∈ detect_anomalies t now,
      f ∈ (match find_rating_col t with
           | some c =>
              match rating_concentration (c.vals.map val_num) with
              | some e => [Finding.ratingConcentration e.1 e.2]
              | none => []
           | none => []) ∨
      f ∈ (match find_comment_col t with
           | some c =>
              match duplicate_reviews (c.vals.map val_str) with
              | some e => [Finding.duplicateReviews e.1 e.2]
              | none => []
           | none => []) ∨
      f ∈ (match date_cols t with
           | c :: _ => date_findings c now
           | [] => []) ∨
      f ∈ t.filterMap missing_finding := by
    intro f hf
    rw [detect_anomalies] at hf
    rcases List.mem_append.mp hf with hf | hf4
    · rcases List.mem_append.mp hf with hf | hf3
      · rcases List.mem_append.mp hf with hf1 | hf2
        · exact Or.inl hf1
        · exact Or.inr (Or.inl hf2)
      · exact Or.inr (Or.inr (Or.inl hf3))
    · exact Or.inr (Or.inr (Or.inr hf4))
  have shape1 : ∀ f, f ∈ (match find_rating_col t with
      | some c =>
          match rating_concentration (c.vals.map val_num) with
          | some e => [Finding.ratingConcentration e.1 e.2]
          | none => []
      | none => []) → ∃ v pct, f = Finding.ratingConcentration v pct := by
    intro f hf
    cases hr : find_rating_col t with
    | none => rw [hr] at hf; cases hf
    | some c =>
        rw [hr] at hf
        cases hrc : rating_concentration (c.vals.map val_num) with
        | none => simp only [hrc, List.not_mem_nil] at hf
        | some e =>
            simp only [hrc, List.mem_singleton] at hf
            exact ⟨e.1, e.2, hf⟩
  have shape2 : ∀ f, f ∈ (match find_comment_col t with
      | some c =>
          match duplicate_reviews (c.vals.map val_str) with
          | some e => [Finding.duplicateReviews e.1 e.2]
          | none => []
      | none => []) → ∃ n rate, f = Finding.duplicateReviews n rate := by
    intro f hf
    cases hr : find_comment_col t with
    | none => rw [hr] at hf; cases hf
    | some c =>
        rw [hr] at hf
        cases hrc : duplicate_reviews (c.vals.map val_str) with
        | none => simp only [hrc, List.not_mem_nil] at hf
        | some e =>
            simp only [hrc, List.mem_singleton] at hf
            exact ⟨e.1, e.2, hf⟩
  have shape3 : ∀ f, f ∈ (match date_cols t with
      | c :: _ => date_findings c now
      | [] => []) →
      (∃ n, f = Finding.futureDate n) ∨ ∃ p pct, f = Finding.burstGrowth p pct := by
    intro f hf
    cases hd : date_cols t with
    | nil => rw [hd] at hf; cases hf
    | cons c cs => rw [hd] at hf; exact mem_date_findings c now f hf
  refine ⟨?_, ?_, ?_⟩
  · intro hnone f hf
    rcases split4 f hf with h1 | h2 | h3 | h4
    · rw [hnone] at h1; cases h1
    · rcases shape2 f h2 with ⟨n, rate, rfl⟩; rfl
    · rcases shape3 f h3 with ⟨n, rfl⟩ | ⟨p, pct, rfl⟩ <;> rfl
    · rcases mem_missing_findings t f h4 with ⟨c, pct, rfl⟩; rfl
  · intro hnone f hf
    rcases split4 f hf with h1 | h2 | h3 | h4
    · rcases shape1 f h1 with ⟨v, pct, rfl⟩; rfl
    · rw [hnone] at h2; cases h2
    · rcases shape3 f h3 with ⟨n, rfl⟩ | ⟨p, pct, rfl⟩ <;> rfl
    · rcases mem_missing_findings t f h4 with ⟨c, pct, rfl⟩; rfl
  · intro hnil f hf
    rcases split4 f hf with h1 | h2 | h3 | h4
    · rcases shape1 f h1 with ⟨v, pct, rfl⟩; exact ⟨rfl, rfl⟩
    · rcases shape2 f h2 with ⟨n, rate, rfl⟩; exact ⟨rfl, rfl⟩
    · rw [hnil] at h3; cases h3
    · rcases mem_missing_findings t f h4 with ⟨c, pct, rfl⟩; exact ⟨rfl, rfl⟩

/-- C9 witness: a table with a rating and a review column but no datetime
column — the detector's output provably carries no FutureDate and no
BurstGrowth finding, without failing. -/
theorem detect_anomalies_skips_witness :
    date_cols [⟨"Rating", DType.other, [Val.num 5]⟩,
      ⟨"Review", DType.other, [Val.str "ok"]⟩] = [] ∧
    ∀ f ∈ detect_anomalies [⟨"Rating", DType.other, [Val.num 5]⟩,
        ⟨"Review", DType.other, [Val.str "ok"]⟩] 0,
      f.isFutureDate = false ∧ f.isBurstGrowth = false :=
  ⟨rfl,
    (detect_anomalies_skips [⟨"Rating", DType.other, [Val.num 5]⟩,
      ⟨"Review", DType.other, [Val.str "ok"]⟩] 0).2.2 rfl⟩

/-! ## Stable-sort lemmas, shared by C4 and C7 -/

/-- Membership through `insert_desc`. -/
theorem mem_insert_desc {α β : Type} [LinearOrder β] (score : α → β) (a c : α) :
    ∀ l : List α, c ∈ insert_desc score a l ↔ c = a ∨ c ∈ l := by
  intro l
  induction l with
  | nil => simp [insert_desc]
  | cons b t ih =>
      rw [insert_desc]
      split_ifs with h
      · simp [List.mem_cons]
      · simp only [List.mem_cons, ih]
        tauto

/-- Membership through `sort_desc`. -/
theorem mem_sort_desc {α β : Type} [LinearOrder β] (score : α → β) (c : α) :
    ∀ l : List α, c ∈ sort_desc score l ↔ c ∈ l := by
  intro l
  induction l with
  | nil => simp [sort_desc]
  | cons x xs ih =>
      rw [sort_desc, mem_insert_desc]
      simp [ih]

/-- `insert_desc` permutes the cons. -/
theorem insert_desc_perm {α β : Type} [LinearOrder β] (score : α → β) (a : α) :
    ∀ l : List α, List.Perm (insert_desc score a l) (a :: l) := by
  intro l
  induction l with
  | nil => exact List.Perm.refl _
  | cons b t ih =>
      rw [insert_desc]
      split_ifs with h
      · exact List.Perm.refl _
      · exact (ih.cons b).trans (List.Perm.swap a b t)

/-- `sort_desc` is a permutation. -/
theorem sort_desc_perm {α β : Type} [LinearOrder β] (score : α → β) :
    ∀ l : List α, List.Perm (sort_desc score l) l := by
  intro l
  induction l with
  | nil => exact List.Perm.refl _
  | cons x xs ih =>
      rw [sort_desc]
      exact (insert_desc_perm score x _).trans (ih.cons x)

/-- Inserting an element whose secondary key exceeds every present key
preserves the stable descending order. -/
theorem pairwise_insert_desc {α β κ : Type} [LinearOrder β] [LinearOrder κ]
    (score : α → β) (key : α → κ) (a : α) :
    ∀ l : List α, l.Pairwise (slex score key) → (∀ b ∈ l, key a < key b) →
      (insert_desc score a l).Pairwise (slex score key) := by
  intro l
  induction l with
  | nil =>
      intro _ _
      exact List.pairwise_singleton _ _
  | cons b t ih =>
      intro hp hk
      rcases List.pairwise_cons.mp hp with ⟨hb, ht⟩
      rw [insert_desc]
      split_ifs with h
      · refine List.pairwise_cons.mpr ⟨?_, hp⟩
        intro c hc
        rcases List.mem_cons.mp hc with rfl | hct
        · rcases lt_or_eq_of_le h with hlt | heq
          · exact Or.inl hlt
          · exact Or.inr ⟨heq.symm, hk c (List.mem_cons_self _ _)⟩
        · rcases hb c hct with hlt | ⟨heq, _⟩
          · exact Or.inl (lt_of_lt_of_le hlt h)
          · rcases lt_or_eq_of_le h with hlt2 | heq2
            · exact Or.inl (heq ▸ hlt2)
            · exact Or.inr ⟨heq2.symm.trans heq, hk c (List.mem_cons_of_mem _ hct)⟩
      · refine List.pairwise_cons.mpr
          ⟨?_, ih ht (fun x hx => hk x (List.mem_cons_of_mem _ hx))⟩
        intro c hc
        rcases (mem_insert_desc score a c t).mp hc with rfl | hct
        · exact Or.inl (not_le.mp h)
        · exact hb c hct

/-- A stable descending sort of a list whose secondary keys strictly
increase is ordered by descending score with equal scores in ascending key
order. -/
theorem pairwise_sort_desc {α β κ : Type} [LinearOrder β] [LinearOrder κ]
    (score : α → β) (key : α → κ) :
    ∀ l : List α, l.Pairwise (fun x y => key x < key y) →
      (sort_desc score l).Pairwise (slex score key) := by
  intro l
  induction l with
  | nil =>
      intro _
      exact List.Pairwise.nil
  | cons x xs ih =>
      intro h
      rcases List.pairwise_cons.mp h with ⟨hx, hxs⟩
      rw [sort_desc]
      refine pairwise_insert_desc score key x _ (ih hxs) ?_
      intro b hb
      exact hx b ((mem_sort_desc score b xs).mp hb)

/-! ## C4 — per-dimension ordering -/

/-- The grouped records carry strictly increasing keys. -/
theorem groupby_agg_key_pairwise (pairs : List (String × Option ℚ)) :
    (groupby_agg pairs).Pairwise (fun g h => g.key < h.key) := by
  have hs : (group_keys pairs).Sorted (fun a b => a ≤ b) :=
    List.sorted_insertionSort _ _
  have hnd : (group_keys pairs).Nodup :=
    ((List.perm_insertionSort _ _).nodup_iff).mpr (List.nodup_dedup _)
  have hlt : (group_keys pairs).Sorted (fun a b => a < b) := hs.lt_of_le hnd
  exact hlt.map _ (fun a b hab => hab)

/-- C4 (amended): the `analyze_products`/`analyze_regions` sequence is a
permutation of the grouped records sorted by strictly descending mean with
ties (equal means) left in ascending key order — count is not a sort key;
the `generate_region_chart` sequence is instead sorted by strictly
descending count, ties in ascending key order. -/
theorem agg_by_dimension_spec (pairs : List (String × Option ℚ)) :
    List.Perm (agg_by_dimension pairs) (groupby_agg pairs) ∧
    (agg_by_dimension pairs).Pairwise
      (slex (fun g => g.mean) (fun g => g.key)) ∧
    List.Perm (region_stats_by_count pairs) (groupby_agg pairs) ∧
    (region_stats_by_count pairs).Pairwise
      (slex (fun g => g.count) (fun g => g.key)) :=
  ⟨sort_desc_perm _ _,
    pairwise_sort_desc _ _ _ (groupby_agg_key_pairwise pairs),
    sort_desc_perm _ _,
    pairwise_sort_desc _ _ _ (groupby_agg_key_pairwise pairs)⟩

/-- C4 counterexample: rows `[("A", 5), ("B", 1), ("B", 1)]` through the
`generate_region_chart` path yield the sequence `[B (mean 1, count 2),
A (mean 5, count 1)]`, which violates the claimed descending-by-mean order
(and on a mean tie the `analyze_products` path keeps ascending key order
rather than the claimed descending count). -/
theorem agg_by_dimension_cex :
    claim_dim_order
      (region_stats_by_count [("A", some 5), ("B", some 1), ("B", some 1)]) = false := by
  have hk : group_keys [("A", some 5), ("B", some 1), ("B", some 1)] = ["A", "B"] := by
    rw [group_keys]
    have hd : (([("A", some 5), ("B", some 1), ("B", some 1)] :
        List (String × Option ℚ)).map (fun e => e.1)).dedup = ["A", "B"] := by decide
    rw [hd]
    simp [List.insertionSort, List.orderedInsert, String.le_iff_toList_le]
    decide
  have hA : group_ratings [("A", some 5), ("B", some 1), ("B", some 1)] "A" = [5] := by
    decide
  have hB : group_ratings [("A", some 5), ("B", some 1), ("B", some 1)] "B" = [1, 1] := by
    decide
  have h1 : region_stats_by_count [("A", some 5), ("B", some 1), ("B", some 1)] =
      [⟨"B", ((1 : ℚ) : WithBot ℚ), 2⟩, ⟨"A", ((5 : ℚ) : WithBot ℚ), 1⟩] := by
    rw [region_stats_by_count, groupby_agg, hk]
    simp only [List.map_cons, List.map_nil, hA, hB]
    norm_num [ratings_mean, sort_desc, insert_desc]
  rw [h1]
  decide

/-! ## C7 — keyword counts, ranking and truncation -/

/-- A `filterMap` that only ever rewrites survivors of `g` yields a sublist
of the `g`-map. -/
theorem filterMap_sublist_map {α β : Type} (f : α → Option β) (g : α → β)
    (l : List α) (h : ∀ a b, f a = some b → b = g a) :
    List.Sublist (l.filterMap f) (l.map g) := by
  induction l with
  | nil => simp
  | cons x t ih =>
      rw [List.map_cons, List.filterMap_cons]
      cases hf : f x with
      | none => exact ih.cons _
      | some b =>
          rw [h x b hf]
          exact ih.cons₂ _

/-- The dictionary walk emits entries whose keyword indexes strictly
increase along the dictionary. -/
theorem kw_hits_idx_pairwise (dict : List (String × String)) (texts : List String)
    (hnd : dict.Pairwise (fun a b =>
      List.indexOf a.1 (dict.map (fun q => q.1)) <
        List.indexOf b.1 (dict.map (fun q => q.1)))) :
    (kw_hits dict texts).Pairwise (fun e f =>
      List.indexOf e.2.2 (dict.map (fun q => q.1)) <
        List.indexOf f.2.2 (dict.map (fun q => q.1))) := by
  have hsub : List.Sublist (kw_hits dict texts)
      (dict.map (fun e => (e.2, kw_count texts e.1, e.1))) := by
    refine filterMap_sublist_map _ _ _ (fun a b hab => ?_)
    simp only at hab
    split_ifs at hab with hpos
    exact (Option.some_inj.mp hab).symm
  have hmap : (dict.map (fun e => (e.2, kw_count texts e.1, e.1))).Pairwise
      (fun e f =>
        List.indexOf e.2.2 (dict.map (fun q => q.1)) <
          List.indexOf f.2.2 (dict.map (fun q => q.1))) := by
    rw [List.pairwise_map]
    exact hnd
  exact hmap.sublist hsub

/-- The positive dictionary's keywords sit at strictly increasing indexes. -/
theorem positive_kw_idx_pairwise :
    positive_keywords.Pairwise (fun a b =>
      List.indexOf a.1 (positive_keywords.map (fun q => q.1)) <
        List.indexOf b.1 (positive_keywords.map (fun q => q.1))) := by
  decide

/-- The negative dictionary's keywords sit at strictly increasing indexes. -/
theorem negative_kw_idx_pairwise :
    negative_keywords.Pairwise (fun a b =>
      List.indexOf a.1 (negative_keywords.map (fun q => q.1)) <
        List.indexOf b.1 (negative_keywords.map (fun q => q.1))) := by
  decide

/-- Every keyword of either dictionary is already lowercase, so matching a
lowercased text against it is the case-insensitive match of the spec. -/
theorem kw_lowercase :
    (∀ e ∈ positive_keywords, str_lower e.1 = e.1) ∧
      ∀ e ∈ negative_keywords, str_lower e.1 = e.1 := by
  constructor <;> decide

/-- Entries of a hit list produced by `kw_hits`: dictionary pairs with the
case-insensitive row count, positive. -/
theorem mem_kw_hits (dict : List (String × String)) (texts : List String)
    (hlow : ∀ e ∈ dict, str_lower e.1 = e.1)
    (d : String) (c : ℕ) (k : String) (h : (d, c, k) ∈ kw_hits dict texts) :
    (k, d) ∈ dict ∧ 0 < c ∧ c = ci_kw_count texts k := by
  rcases List.mem_filterMap.mp h with ⟨e, he, hee⟩
  simp only at hee
  split_ifs at hee with hpos
  have h0 : (e.2, kw_count texts e.1, e.1) = (d, c, k) := Option.some_inj.mp hee
  have hd : e.2 = d := congrArg Prod.fst h0
  have h2 : kw_count texts e.1 = c := congrArg (fun x => x.2.1) h0
  have hk : e.1 = k := congrArg (fun x => x.2.2) h0
  have he2 : e = (k, d) := by
    cases e
    simp_all
  have hl : str_lower k = k := by
    have hle := hlow e he
    rw [hk] at hle
    exact hle
  refine ⟨he2 ▸ he, h2 ▸ hpos, ?_⟩
  rw [← h2, hk]
  simp only [kw_count, ci_kw_count, hl]

/-- C7: every listed keyword entry (positive or negative) carries the
number of rows of the relevant non-null-text subset containing the keyword
case-insensitively, counted once per row; each list is ranked by strictly
descending count with ties in dictionary declaration order; and the lists
are the top-5 positive and top-3 negative prefixes of the full rankings. -/
theorem product_pros_cons_spec (rows : List Row) (p : String) :
    (∀ d c k, (d, c, k) ∈ product_pros rows p →
      (k, d) ∈ positive_keywords ∧ 0 < c ∧
        c = ci_kw_count (good_reviews rows p) k) ∧
    (product_pros rows p).Pairwise
      (slex (fun e => e.2.1)
        (fun e => List.indexOf e.2.2 (positive_keywords.map (fun q => q.1)))) ∧
    product_pros rows p = (ranked_hits positive_keywords (good_reviews rows p)).take 5 ∧
    (∀ d c k, (d, c, k) ∈ product_cons rows p →
      (k, d) ∈ negative_keywords ∧ 0 < c ∧
        c = ci_kw_count (bad_reviews rows p) k) ∧
    (product_cons rows p).Pairwise
      (slex (fun e => e.2.1)
        (fun e => List.indexOf e.2.2 (negative_keywords.map (fun q => q.1)))) ∧
    product_cons rows p = (ranked_hits negative_keywords (bad_reviews rows p)).take 3 := by
  refine ⟨?_, ?_, rfl, ?_, ?_, rfl⟩
  · intro d c k h
    have h1 : (d, c, k) ∈ ranked_hits positive_keywords (good_reviews rows p) :=
      (List.take_sublist 5 _).mem h
    have h2 : (d, c, k) ∈ kw_hits positive_keywords (good_reviews rows p) :=
      (mem_sort_desc _ _ _).mp h1
    exact mem_kw_hits _ _ kw_lowercase.1 d c k h2
  · refine List.Pairwise.sublist (List.take_sublist 5 _) ?_
    exact pairwise_sort_desc _ _ _
      (kw_hits_idx_pairwise positive_keywords _ positive_kw_idx_pairwise)
  · intro d c k h
    have h1 : (d, c, k) ∈ ranked_hits negative_keywords (bad_reviews rows p) :=
      (List.take_sublist 3 _).mem h
    have h2 : (d, c, k) ∈ kw_hits negative_keywords (bad_reviews rows p) :=
      (mem_sort_desc _ _ _).mp h1
    exact mem_kw_hits _ _ kw_lowercase.2 d c k h2
  · refine List.Pairwise.sublist (List.take_sublist 3 _) ?_
    exact pairwise_sort_desc _ _ _
      (kw_hits_idx_pairwise negative_keywords _ negative_kw_idx_pairwise)

/-- C7 witness: the spec's scenario — product P with good reviews
"great quality" and "great". The 'great' hit has count 2, ranks first, and
matches the case-insensitive row count; the bad subset is empty so the
negative list is empty. -/
theorem product_pros_cons_spec_witness :
    product_pros [⟨"P", some 5, some "great quality"⟩, ⟨"P", some 5, some "great"⟩] "P" =
      [("表现优异", 2, "great"), ("质量优秀", 1, "quality")] ∧
    product_cons [⟨"P", some 5, some "great quality"⟩, ⟨"P", some 5, some "great"⟩] "P" =
      [] ∧
    (("great", "表现优异") ∈ positive_keywords ∧ 0 < 2 ∧
      2 = ci_kw_count
        (good_reviews [⟨"P", some 5, some "great quality"⟩,
          ⟨"P", some 5, some "great"⟩] "P") "great") :=
  ⟨by decide, by decide,
    (product_pros_cons_spec
        [⟨"P", some 5, some "great quality"⟩, ⟨"P", some 5, some "great"⟩] "P").1
      "表现优异" 2 "great" (by decide)⟩

end PP
